import Mathlib

/-!
Shallow embedding of `src/main.rs` of the `huffman-code` repository
(a Huffman file compressor), together with proofs checking the
natural-language specification against it.

Modelling conventions:
* Bytes (`u8`) and counts (`usize`) are `Nat`; wherever `u8` arithmetic
  could wrap we reduce modulo 256 explicitly.
* `HashMap<u8, Vec<u8>>` / `HashMap<Vec<u8>, u8>` are association lists in
  insertion order; `hmGet` returns the value of the *last* insertion for a
  key, matching `HashMap::insert` overwrite semantics.  Functions that
  iterate over a hash map are parameterised by the iteration order (the
  list order); theorems quantify over that order where it matters.
* Fallible operations return `Option`/`Except`: `none` models a panic
  (a failed `unwrap`) or divergence, `Except.error` models a returned
  `Err` (anyhow), `Except.ok` a normal result.
* The `HuffmanTree` struct stores `Option<Box<HuffmanTree>>` children;
  we encode the four possible `(left.is_some, right.is_some)` shapes as
  four constructors so that all functions are structurally recursive and
  kernel-computable.
-/

deriving instance DecidableEq for Except

/-- The Rust `HuffmanTree` struct: an `Inner { ch, weight }` plus optional
left and right children.  `leafN ch w` is a node with both children `None`;
`nodeL`/`nodeR` have only a left / only a right child; `nodeLR` has both. -/
inductive HuffmanTree : Type where
  | leafN (ch weight : Nat)
  | nodeL (ch weight : Nat) (l : HuffmanTree)
  | nodeR (ch weight : Nat) (r : HuffmanTree)
  | nodeLR (ch weight : Nat) (l r : HuffmanTree)
deriving DecidableEq, Repr

namespace HuffmanTree

/-- The `ch` field of the node's `Inner`. -/
def ch : HuffmanTree → Nat
  | leafN c _ => c
  | nodeL c _ _ => c
  | nodeR c _ _ => c
  | nodeLR c _ _ _ => c

/-- The `weight` field of the node's `Inner`. -/
def wt : HuffmanTree → Nat
  | leafN _ w => w
  | nodeL _ w _ => w
  | nodeR _ w _ => w
  | nodeLR _ w _ _ => w

/-- `HuffmanTree::merge_hufftree`: the merged node's `Inner` is
`tree1.inner + tree2.inner`, whose `impl Add` sets `ch = 0` and sums the
weights; `tree1` becomes the left child and `tree2` the right child. -/
def merge_hufftree (tree1 tree2 : HuffmanTree) : HuffmanTree :=
  nodeLR 0 (tree1.wt + tree2.wt) tree1 tree2

end HuffmanTree

/-- Stable insertion (descending by weight): an element is placed before
the first strictly-lighter element, after all elements of equal weight
that were already in the list.  Helper for `sortDesc`. -/
def insertDesc (x : HuffmanTree) : List HuffmanTree → List HuffmanTree
  | [] => [x]
  | y :: ys => if y.wt ≤ x.wt then x :: y :: ys else y :: insertDesc x ys

/-- `trees.sort_by_key(|x| 0 - x.inner.weight as isize)`: a stable sort by
descending weight.  Insertion sort is extensionally equal to Rust's stable
`sort_by_key` for this key. -/
def sortDesc : List HuffmanTree → List HuffmanTree
  | [] => []
  | x :: xs => insertDesc x (sortDesc xs)

/-- The merge loop of `create_huffman_tree`, pops taken from the end of the
vector.  `fuel` bounds the number of iterations (the caller passes the
forest size, which is enough); returning `none` models the unreachable
situations (fuel exhaustion, or the infinite loop the Rust code would
enter on an empty forest). -/
def huffLoopAux : Nat → List HuffmanTree → Option HuffmanTree
  | 0, ts => if ts.length = 1 then ts.getLast? else none
  | fuel + 1, ts =>
    if ts.length = 1 then ts.getLast?
    else
      match ts.getLast?, ts.dropLast.getLast? with
      | some tree1, some tree2 =>
          huffLoopAux fuel
            (sortDesc (ts.dropLast.dropLast ++ [HuffmanTree.merge_hufftree tree1 tree2]))
      | _, _ => none

/-- `create_huffman_tree`: build singleton trees from the frequency pairs
(in hash-map iteration order), push the weight-0 placeholder leaf
`Inner::new(0, 0)`, sort descending by weight, then repeatedly merge the
two lightest trees until one remains. -/
def create_huffman_tree (freq : List (Nat × Nat)) : Option HuffmanTree :=
  let trees := freq.map (fun p => HuffmanTree.leafN p.1 p.2) ++ [HuffmanTree.leafN 0 0]
  let trees := sortDesc trees
  huffLoopAux trees.length trees

/-- The frequency-counting loop of `main`: walk the bytes, incrementing the
count of a byte already present and inserting count 1 otherwise.  The
association list keeps hash-map insertion order (first occurrence order). -/
def freqStep (m : List (Nat × Nat)) (ch : Nat) : List (Nat × Nat) :=
  if m.any (fun p => decide (p.1 = ch)) then
    m.map (fun p => if p.1 = ch then (p.1, p.2 + 1) else p)
  else m ++ [(ch, 1)]

/-- Frequency table of a byte sequence (see `freqStep`). -/
def freqFrom (buff : List Nat) : List (Nat × Nat) :=
  buff.foldl freqStep []

/-- `HashMap` lookup for an association list in insertion order: the last
inserted binding for the key wins (`HashMap::insert` overwrites). -/
def hmGet {κ β : Type} [DecidableEq κ] (m : List (κ × β)) (k : κ) : Option β :=
  ((m.filter (fun p => decide (p.1 = k))).getLast?).map (fun p => p.2)

/-- `HashMap::insert` on an association list: overwrite the binding in
place if the key is present, append otherwise. -/
def insertAL (m : List (List Nat × Nat)) (k : List Nat) (v : Nat) :
    List (List Nat × Nat) :=
  if m.any (fun p => decide (p.1 = k)) then
    m.map (fun p => if p.1 = k then (k, v) else p)
  else m ++ [(k, v)]

/-- `generate_huffman_code`: returns the `(symbol, code)` pairs in the
order they are inserted into `key_code`.  A node whose `ch` is non-zero is
recorded with the path so far and not descended; otherwise the left child
is visited with `0` pushed, and the right child with the last path element
popped and `1` pushed (mirroring the `code.pop(); code.push(1)` of the
source, including its behaviour when only one child is present). -/
def generate_huffman_code (code : List Nat) :
    HuffmanTree → List (Nat × List Nat)
  | .leafN c _ => if c ≠ 0 then [(c, code)] else []
  | .nodeL c _ l =>
      if c ≠ 0 then [(c, code)] else generate_huffman_code (code ++ [0]) l
  | .nodeR c _ r =>
      if c ≠ 0 then [(c, code)]
      else generate_huffman_code (code.dropLast ++ [1]) r
  | .nodeLR c _ l r =>
      if c ≠ 0 then [(c, code)]
      else
        generate_huffman_code (code ++ [0]) l ++
          generate_huffman_code ((code ++ [0]).dropLast ++ [1]) r

/-- `slice::chunks(8)`: split a list into consecutive groups of 8, the
final group possibly shorter (and no group for the empty list). -/
def chunk8 : List Nat → List (List Nat)
  | [] => []
  | [a] => [[a]]
  | [a, b] => [[a, b]]
  | [a, b, c] => [[a, b, c]]
  | [a, b, c, d] => [[a, b, c, d]]
  | [a, b, c, d, e] => [[a, b, c, d, e]]
  | [a, b, c, d, e, f] => [[a, b, c, d, e, f]]
  | [a, b, c, d, e, f, g] => [[a, b, c, d, e, f, g]]
  | a :: b :: c :: d :: e :: f :: g :: h :: rest =>
      [a, b, c, d, e, f, g, h] :: chunk8 rest

/-- The packing of one chunk in `code_original_file`:
`result += byte[i] * 2u8.pow(7 - i)` over the chunk, with `u8` arithmetic
reduced mod 256 (the source would overflow only on non-bit code values). -/
def toByte (byte : List Nat) : Nat :=
  byte.enum.foldl (fun result p => (result + p.2 * 2 ^ (7 - p.1) % 256) % 256) 0

/-- The concatenated code bits of the input, in input order
(`buff.map(|ch| codes.get(&ch).unwrap()).flat_map(...)`); `none` models the
`unwrap` panic on a byte with no code. -/
def bitStream (buff : List Nat) (codes : List (Nat × List Nat)) :
    Option (List Nat) :=
  (buff.mapM (hmGet codes)).map List.flatten

/-- `code_original_file`: look up every input byte's code, concatenate the
bits, and pack each group of 8 into a byte MSB-first. -/
def code_original_file (buff : List Nat) (codes : List (Nat × List Nat)) :
    Option (List Nat) :=
  (bitStream buff codes).map (fun bits => (chunk8 bits).map toByte)

/-- `write_code2file`: one record per table entry, in iteration order:
the raw symbol byte, `b':'`, each code bit plus `b'0'`, then `b'\n'`.
The result is the byte content written to the code-table file. -/
def write_code2file (codes : List (Nat × List Nat)) : List Nat :=
  (codes.map (fun p => p.1 :: 58 :: (p.2.map (fun x => (x + 48) % 256) ++ [10]))).flatten

/-- `str::split` against a one-character separator, on a list of
codepoints: always returns at least one (possibly empty) part. -/
def splitOnNat (sep : Nat) : List Nat → List (List Nat)
  | [] => [[]]
  | c :: cs =>
      let r := splitOnNat sep cs
      if c = sep then [] :: r
      else
        match r with
        | [] => [[c]]
        | h :: t => (c :: h) :: t

/-- One scalar of UTF-8 decoding as validated by Rust's
`String::from_utf8`, for a first byte `b` followed by `bs`: returns the
codepoint and how many continuation bytes were consumed, or `none` on a
malformed sequence (lone or misplaced continuation bytes, overlong forms,
surrogates, values past U+10FFFF).  A missing continuation byte is read as
the sentinel 999, which fails every continuation-range test. -/
def utf8Step (b : Nat) (bs : List Nat) : Option (Nat × Nat) :=
  let b1 := bs.getD 0 999
  let b2 := bs.getD 1 999
  let b3 := bs.getD 2 999
  if b < 0x80 then some (b, 0)
  else if b < 0xC2 then none
  else if b < 0xE0 then
    if 0x80 ≤ b1 ∧ b1 < 0xC0 then
      some ((b - 0xC0) * 64 + (b1 - 0x80), 1)
    else none
  else if b < 0xF0 then
    if (0x80 ≤ b1 ∧ b1 < 0xC0) ∧ (0x80 ≤ b2 ∧ b2 < 0xC0) ∧
        (b ≠ 0xE0 ∨ 0xA0 ≤ b1) ∧ (b ≠ 0xED ∨ b1 < 0xA0) then
      some ((b - 0xE0) * 4096 + (b1 - 0x80) * 64 + (b2 - 0x80), 2)
    else none
  else if b < 0xF5 then
    if (0x80 ≤ b1 ∧ b1 < 0xC0) ∧ (0x80 ≤ b2 ∧ b2 < 0xC0) ∧
        (0x80 ≤ b3 ∧ b3 < 0xC0) ∧ (b ≠ 0xF0 ∨ 0x90 ≤ b1) ∧
        (b ≠ 0xF4 ∨ b1 < 0x90) then
      some ((b - 0xF0) * 262144 + (b1 - 0x80) * 4096 +
        (b2 - 0x80) * 64 + (b3 - 0x80), 3)
    else none
  else none

/-- The UTF-8 decoding loop; `fuel` bounds the number of scalars (the
byte count always suffices, since every scalar consumes at least one
byte). -/
def utf8DecodeAux : Nat → List Nat → Option (List Nat)
  | _, [] => some []
  | 0, _ :: _ => none
  | fuel + 1, b :: bs =>
    match utf8Step b bs with
    | none => none
    | some (c, k) => (utf8DecodeAux fuel (bs.drop k)).map (fun r => c :: r)

/-- UTF-8 decoding of a byte chunk into codepoints, or `none` on invalid
UTF-8, exactly as Rust's `String::from_utf8` validates it. -/
def utf8Decode (bs : List Nat) : Option (List Nat) :=
  utf8DecodeAux bs.length bs

/-- Strip one trailing carriage return, as `BufRead::lines` does on a
newline-terminated line. -/
def strip13 (l : List Nat) : List Nat :=
  if l.getLast? = some 13 then l.dropLast else l

/-- `BufRead::lines` on the raw bytes, before UTF-8 validation: split on
`b'\n'`; every `\n`-terminated chunk has a trailing `\r` stripped; a final
unterminated chunk is kept as-is, and no empty final line is produced for
a `\n`-terminated file. -/
def linesOfBytes (bs : List Nat) : List (List Nat) :=
  let parts := splitOnNat 10 bs
  parts.dropLast.map strip13 ++
    (match parts.getLast? with
     | some [] => []
     | some l => [l]
     | none => [])

/-- The body of the `for line in buff_code.lines()` loop of
`generate_code_table_from_file`, for one already-UTF-8-decoded line:
split on `':'`; `line.get(0).unwrap().parse::<char>()?` fails with a
returned error unless the part before the first `':'` is exactly one
character; `line.get(1).unwrap()` panics when there is no `':'`;
`to_digit(2).unwrap()` panics on any character other than `'0'`/`'1'`.
Parts after the second are ignored.  `ch as u8` truncates mod 256. -/
def parseLine (cs : List Nat) : Option (Except Unit (Nat × List Nat)) :=
  match splitOnNat 58 cs with
  | [] => none
  | p0 :: rest =>
    if p0.length = 1 then
      match rest.head? with
      | none => none
      | some p1 =>
        if p1.all (fun c => decide (c = 48 ∨ c = 49)) then
          some (Except.ok (p0.headD 0 % 256, p1.map (fun c => c - 48)))
        else none
    else some (Except.error ())

/-- The line loop of `generate_code_table_from_file`: lines are processed
in file order; a UTF-8 error in `line?` aborts with a returned error, a
panic (see `parseLine`) aborts abnormally, and successful records are
inserted into the `HashMap<Vec<u8>, u8>` keyed by the code. -/
def parseLinesAux (acc : List (List Nat × Nat)) :
    List (List Nat) → Option (Except Unit (List (List Nat × Nat)))
  | [] => some (Except.ok acc)
  | lb :: rest =>
    match utf8Decode lb with
    | none => some (Except.error ())
    | some cs =>
      match parseLine cs with
      | none => none
      | some (Except.error e) => some (Except.error e)
      | some (Except.ok (ch, code)) => parseLinesAux (insertAL acc code ch) rest

/-- `generate_code_table_from_file`, from the raw bytes of the code-table
file to the decode-direction map (or a returned error / a panic). -/
def generate_code_table_from_file (bs : List Nat) :
    Option (Except Unit (List (List Nat × Nat))) :=
  parseLinesAux [] (linesOfBytes bs)

/-- `d2b`: expand one byte into its 8 bits, most significant first
(`d & t` with `t` running through `128, 64, …, 1`). -/
def d2b (d : Nat) : List Nat :=
  (List.range 8).map (fun i => if d &&& (128 >>> i) ≠ 0 then 1 else 0)

/-- The greedy decoding loop of `decode`, carrying the candidate window. -/
def decodeAux (codes : List (List Nat × Nat)) (window : List Nat) :
    List Nat → List Nat
  | [] => []
  | b :: bs =>
    match hmGet codes (window ++ [b]) with
    | some ch => ch :: decodeAux codes [] bs
    | none => decodeAux codes (window ++ [b]) bs

/-- `decode`: scan the bit stream, emitting a symbol and clearing the
window whenever the window exactly matches a key of the decode table. -/
def decode (codes : List (List Nat × Nat)) (buff : List Nat) : List Nat :=
  decodeAux codes [] buff

/-- The decode-direction mapping obtained by inverting an encode table
(spec §3: "mapping from bit sequence to Symbol — the inverse relation"). -/
def invertTable (codes : List (Nat × List Nat)) : List (List Nat × Nat) :=
  codes.map (fun p => (p.2, p.1))

/-- The number of leaves of a tree (nodes with no children). -/
def numLeaves : HuffmanTree → Nat
  | .leafN _ _ => 1
  | .nodeL _ _ l => numLeaves l
  | .nodeR _ _ r => numLeaves r
  | .nodeLR _ _ l r => numLeaves l + numLeaves r

/-- The `ch` fields of the leaves, left to right. -/
def leafChs : HuffmanTree → List Nat
  | .leafN c _ => [c]
  | .nodeL _ _ l => leafChs l
  | .nodeR _ _ r => leafChs r
  | .nodeLR _ _ l r => leafChs l ++ leafChs r

/-- Shape invariant of trees built by `create_huffman_tree`: every node is
a leaf or an internal node with both children and `ch = 0`. -/
def wfTree : HuffmanTree → Prop
  | .leafN _ _ => True
  | .nodeL _ _ _ => False
  | .nodeR _ _ _ => False
  | .nodeLR c _ l r => c = 0 ∧ wfTree l ∧ wfTree r

/-- `xs` is an initial segment of `ys`. -/
def isHeadOf (xs ys : List Nat) : Prop :=
  ys.take xs.length = xs

instance (xs ys : List Nat) : Decidable (isHeadOf xs ys) :=
  inferInstanceAs (Decidable (ys.take xs.length = xs))

instance wfTreeDec : (t : HuffmanTree) → Decidable (wfTree t)
  | .leafN _ _ => isTrue trivial
  | .nodeL _ _ _ => isFalse id
  | .nodeR _ _ _ => isFalse id
  | .nodeLR c _ l r =>
    letI := wfTreeDec l
    letI := wfTreeDec r
    inferInstanceAs (Decidable (c = 0 ∧ wfTree l ∧ wfTree r))

/-- The whole compression/decompression pipeline of `main` on one byte
sequence: frequency table, tree, encode table, pack, serialize the table,
re-parse it into the decode table, unpack the bits and decode. -/
def roundTrip (buff : List Nat) : Option (List Nat) := do
  let t ← create_huffman_tree (freqFrom buff)
  let codes := generate_huffman_code [] t
  let packed ← code_original_file buff codes
  let dec ← match generate_code_table_from_file (write_code2file codes) with
            | some (Except.ok m) => some m
            | _ => none
  pure (decode dec ((packed.map d2b).flatten))

/-- All leaf `ch` fields of a forest, in order. -/
def forestChs (ts : List HuffmanTree) : List Nat :=
  ts.flatMap leafChs

/-- All lists over `{0, 1}` of length at most `n` (an enumeration used to
settle per-chunk bit-packing facts by evaluation). -/
def allBitLists : Nat → List (List Nat)
  | 0 => [[]]
  | n + 1 =>
      [] :: ((allBitLists n).map (fun l => 0 :: l) ++
        (allBitLists n).map (fun l => 1 :: l))

/-- The tree `create_huffman_tree` builds from the one-entry frequency
table `[(b, n)]`: the placeholder leaf on the left, the symbol on the
right. -/
def singleSymbolTree (b n : Nat) : HuffmanTree :=
  HuffmanTree.nodeLR 0 n (HuffmanTree.leafN 0 0) (HuffmanTree.leafN b n)

/-- A raw code-table line that deserializes without error: it is valid
UTF-8 and `parseLine` accepts it. -/
def goodRecord (lb : List Nat) : Bool :=
  match utf8Decode lb with
  | some cs =>
    match parseLine cs with
    | some (Except.ok _) => true
    | _ => false
  | none => false

/-- The part of a record before the first `':'` (the symbol field). -/
def symbolField (cs : List Nat) : List Nat :=
  (splitOnNat 58 cs).headD []

/-- The part of a record between the first and second `':'` (the code
field), if a `':'` is present. -/
def codeField (cs : List Nat) : Option (List Nat) :=
  (splitOnNat 58 cs).tail.head?

theorem insertDesc_perm (x : HuffmanTree) (l : List HuffmanTree) :
    (insertDesc x l).Perm (x :: l) := by
  induction l with
  | nil => exact List.Perm.refl _
  | cons y ys ih =>
    unfold insertDesc
    split
    · exact List.Perm.refl _
    · exact (ih.cons y).trans (List.Perm.swap x y ys)

theorem sortDesc_perm (l : List HuffmanTree) : (sortDesc l).Perm l := by
  induction l with
  | nil => exact List.Perm.refl _
  | cons x xs ih => exact (insertDesc_perm x (sortDesc xs)).trans (ih.cons x)

theorem sortDesc_length (l : List HuffmanTree) :
    (sortDesc l).length = l.length :=
  (sortDesc_perm l).length_eq

theorem sortDesc_ne_nil {l : List HuffmanTree} (h : l ≠ []) : sortDesc l ≠ [] := by
  intro hcon
  have hl := sortDesc_length l
  rw [hcon] at hl
  exact h (List.length_eq_zero.mp hl.symm)

theorem two_decomp {ts : List HuffmanTree} (h : 2 ≤ ts.length) :
    ∃ init t2 t1, ts = init ++ [t2, t1] := by
  rcases List.eq_nil_or_concat ts with rfl | ⟨l1, t1, rfl⟩
  · simp at h
  rcases List.eq_nil_or_concat l1 with rfl | ⟨init, t2, rfl⟩
  · simp at h
  exact ⟨init, t2, t1, by simp⟩

theorem huffLoopAux_step (fuel : Nat) (init : List HuffmanTree)
    (t2 t1 : HuffmanTree) :
    huffLoopAux (fuel + 1) (init ++ [t2, t1]) =
      huffLoopAux fuel
        (sortDesc (init ++ [HuffmanTree.merge_hufftree t1 t2])) := by
  have hassoc : init ++ [t2, t1] = (init ++ [t2]) ++ [t1] := by simp
  have h1 : (init ++ [t2, t1]).getLast? = some t1 := by
    rw [hassoc]; exact List.getLast?_concat _
  have h2 : (init ++ [t2, t1]).dropLast = init ++ [t2] := by
    rw [hassoc]; exact List.dropLast_concat ..
  have hlen : (init ++ [t2, t1]).length = init.length + 2 := by simp
  conv_lhs => rw [huffLoopAux]
  rw [if_neg (by omega), h1, h2, List.getLast?_concat, List.dropLast_concat]

theorem huffLoopAux_isSome :
    ∀ (fuel : Nat) (ts : List HuffmanTree), ts ≠ [] → ts.length ≤ fuel + 1 →
      (huffLoopAux fuel ts).isSome := by
  intro fuel
  induction fuel with
  | zero =>
    intro ts hne hlen
    have h1 : ts.length = 1 := by
      have := List.length_pos.mpr hne
      omega
    unfold huffLoopAux
    rw [if_pos h1]
    exact List.getLast?_isSome.mpr hne
  | succ fuel ih =>
    intro ts hne hlen
    by_cases h1 : ts.length = 1
    · unfold huffLoopAux
      rw [if_pos h1]
      exact List.getLast?_isSome.mpr hne
    · have h2 : 2 ≤ ts.length := by
        have := List.length_pos.mpr hne
        omega
      obtain ⟨init, t2, t1, rfl⟩ := two_decomp h2
      rw [huffLoopAux_step]
      apply ih
      · apply sortDesc_ne_nil; simp
      · rw [sortDesc_length]
        simp at hlen ⊢
        omega

theorem create_huffman_tree_isSome (fl : List (Nat × Nat)) :
    (create_huffman_tree fl).isSome := by
  unfold create_huffman_tree
  apply huffLoopAux_isSome
  · apply sortDesc_ne_nil; simp
  · omega

theorem mem_of_getLast?_eq {α : Type} {l : List α} {a : α}
    (h : l.getLast? = some a) : a ∈ l := by
  obtain ⟨hne, rfl⟩ := List.mem_getLast?_eq_getLast (show a ∈ l.getLast? from h ▸ rfl)
  exact List.getLast_mem hne

theorem forestChs_perm {ts ts' : List HuffmanTree} (h : ts.Perm ts') :
    (forestChs ts).Perm (forestChs ts') :=
  h.flatMap_right leafChs

theorem leafChs_merge (t1 t2 : HuffmanTree) :
    leafChs (HuffmanTree.merge_hufftree t1 t2) = leafChs t1 ++ leafChs t2 := rfl

theorem numLeaves_eq_length_leafChs (t : HuffmanTree) :
    numLeaves t = (leafChs t).length := by
  induction t with
  | leafN c w => rfl
  | nodeL c w l ih => simpa [numLeaves, leafChs] using ih
  | nodeR c w r ih => simpa [numLeaves, leafChs] using ih
  | nodeLR c w l r ihl ihr => simp [numLeaves, leafChs, ihl, ihr]

theorem huffLoopAux_leafChs :
    ∀ (fuel : Nat) (ts : List HuffmanTree) (t : HuffmanTree),
      huffLoopAux fuel ts = some t → (leafChs t).Perm (forestChs ts) := by
  intro fuel
  induction fuel with
  | zero =>
    intro ts t h
    unfold huffLoopAux at h
    split at h
    · next h1 =>
      obtain ⟨x, rfl⟩ := List.length_eq_one.mp h1
      simp at h
      subst h
      simp [forestChs]
    · simp at h
  | succ fuel ih =>
    intro ts t h
    by_cases h1 : ts.length = 1
    · obtain ⟨x, rfl⟩ := List.length_eq_one.mp h1
      unfold huffLoopAux at h
      simp at h
      subst h
      simp [forestChs]
    · have h2 : 2 ≤ ts.length := by
        have hne : ts ≠ [] := by
          rintro rfl
          unfold huffLoopAux at h
          simp at h
        have := List.length_pos.mpr hne
        omega
      obtain ⟨init, t2, t1, rfl⟩ := two_decomp h2
      rw [huffLoopAux_step] at h
      have hp := (ih _ _ h).trans (forestChs_perm (sortDesc_perm _))
      have he1 : forestChs (init ++ [HuffmanTree.merge_hufftree t1 t2]) =
          forestChs init ++ (leafChs t1 ++ leafChs t2) := by
        simp [forestChs, leafChs_merge]
      have he2 : forestChs (init ++ [t2, t1]) =
          forestChs init ++ (leafChs t2 ++ leafChs t1) := by
        simp [forestChs]
      rw [he1] at hp
      rw [he2]
      exact hp.trans (List.Perm.append_left _ List.perm_append_comm)

theorem huffLoopAux_wf :
    ∀ (fuel : Nat) (ts : List HuffmanTree) (t : HuffmanTree),
      (∀ x ∈ ts, wfTree x) → huffLoopAux fuel ts = some t → wfTree t := by
  intro fuel
  induction fuel with
  | zero =>
    intro ts t hall h
    unfold huffLoopAux at h
    split at h
    · exact hall t (mem_of_getLast?_eq h)
    · simp at h
  | succ fuel ih =>
    intro ts t hall h
    by_cases h1 : ts.length = 1
    · unfold huffLoopAux at h
      rw [if_pos h1] at h
      exact hall t (mem_of_getLast?_eq h)
    · have h2 : 2 ≤ ts.length := by
        have hne : ts ≠ [] := by
          rintro rfl
          unfold huffLoopAux at h
          simp at h
        have := List.length_pos.mpr hne
        omega
      obtain ⟨init, t2, t1, rfl⟩ := two_decomp h2
      rw [huffLoopAux_step] at h
      apply ih _ _ _ h
      intro x hx
      have hx' := (sortDesc_perm _).mem_iff.mp hx
      rcases List.mem_append.mp hx' with hxi | hxm
      · exact hall x (by simp [hxi])
      · simp at hxm
        subst hxm
        refine ⟨rfl, hall t1 (by simp), hall t2 (by simp)⟩

theorem create_wf {fl : List (Nat × Nat)} {t : HuffmanTree}
    (h : create_huffman_tree fl = some t) : wfTree t := by
  unfold create_huffman_tree at h
  apply huffLoopAux_wf _ _ _ _ h
  intro x hx
  have hx' := (sortDesc_perm _).mem_iff.mp hx
  rcases List.mem_append.mp hx' with hxi | hxm
  · obtain ⟨p, _, rfl⟩ := List.mem_map.mp hxi
    trivial
  · simp at hxm
    subst hxm
    trivial

theorem create_leafChs {fl : List (Nat × Nat)} {t : HuffmanTree}
    (h : create_huffman_tree fl = some t) :
    (leafChs t).Perm (fl.map Prod.fst ++ [0]) := by
  unfold create_huffman_tree at h
  have hp := (huffLoopAux_leafChs _ _ _ h).trans (forestChs_perm (sortDesc_perm _))
  have hmapped : ∀ (L : List (Nat × Nat)),
      (L.map (fun p => HuffmanTree.leafN p.1 p.2)).flatMap leafChs =
        L.map Prod.fst := by
    intro L
    induction L with
    | nil => rfl
    | cons p ps ihp => simp [leafChs, ihp]
  have he : forestChs ((fl.map (fun p => HuffmanTree.leafN p.1 p.2)) ++
      [HuffmanTree.leafN 0 0]) = fl.map Prod.fst ++ [0] := by
    simp only [forestChs, List.flatMap_append, hmapped]
    simp [leafChs]
  rwa [he] at hp

theorem create_numLeaves {fl : List (Nat × Nat)} {t : HuffmanTree}
    (h : create_huffman_tree fl = some t) : numLeaves t = fl.length + 1 := by
  rw [numLeaves_eq_length_leafChs, (create_leafChs h).length_eq]
  simp

theorem genCode_keys {t : HuffmanTree} (hwf : wfTree t) (p : List Nat) :
    (generate_huffman_code p t).map Prod.fst =
      (leafChs t).filter (fun c => c ≠ 0) := by
  induction t generalizing p with
  | leafN c w =>
    by_cases hc : c = 0
    · subst hc; simp [generate_huffman_code, leafChs]
    · simp [generate_huffman_code, leafChs, hc]
  | nodeL c w l ih => exact hwf.elim
  | nodeR c w r ih => exact hwf.elim
  | nodeLR c w l r ihl ihr =>
    obtain ⟨hc, hl, hr⟩ := hwf
    subst hc
    simp [generate_huffman_code, leafChs, ihl hl, ihr hr]

theorem genCode_extend {t : HuffmanTree} (hwf : wfTree t) (p : List Nat) :
    ∀ e ∈ generate_huffman_code p t, ∃ q, e.2 = p ++ q := by
  induction t generalizing p with
  | leafN c w =>
    intro e he
    by_cases hc : c = 0
    · subst hc; simp [generate_huffman_code] at he
    · simp [generate_huffman_code, hc] at he
      subst he
      exact ⟨[], by simp⟩
  | nodeL c w l ih => exact hwf.elim
  | nodeR c w r ih => exact hwf.elim
  | nodeLR c w l r ihl ihr =>
    obtain ⟨hc, hl, hr⟩ := hwf
    subst hc
    intro e he
    rw [generate_huffman_code, if_neg (by decide)] at he
    rw [List.dropLast_concat] at he
    rcases List.mem_append.mp he with h | h
    · obtain ⟨q, hq⟩ := ihl hl (p ++ [0]) e h
      exact ⟨0 :: q, by simp [hq]⟩
    · obtain ⟨q, hq⟩ := ihr hr (p ++ [1]) e h
      exact ⟨1 :: q, by simp [hq]⟩

theorem head_imp_getElem? {u v : List Nat} (h : isHeadOf u v) {i : Nat}
    (hi : i < u.length) : v[i]? = u[i]? := by
  unfold isHeadOf at h
  conv_rhs => rw [← h]
  rw [List.getElem?_take, if_pos hi]

theorem not_head_cross {p x y : List Nat} {a b : Nat} (hab : a ≠ b) :
    ¬ isHeadOf (p ++ a :: x) (p ++ b :: y) := by
  intro h
  have hi : p.length < (p ++ a :: x).length := by simp
  have := head_imp_getElem? h hi
  rw [List.getElem?_append_right (by simp), List.getElem?_append_right (by simp)]
    at this
  simp at this
  exact hab this.symm

theorem genCode_pairwise {t : HuffmanTree} (hwf : wfTree t) (p : List Nat) :
    (generate_huffman_code p t).Pairwise
      (fun e1 e2 => ¬ isHeadOf e1.2 e2.2 ∧ ¬ isHeadOf e2.2 e1.2) := by
  induction t generalizing p with
  | leafN c w =>
    by_cases hc : c = 0
    · subst hc; simp [generate_huffman_code]
    · simp [generate_huffman_code, hc]
  | nodeL c w l ih => exact hwf.elim
  | nodeR c w r ih => exact hwf.elim
  | nodeLR c w l r ihl ihr =>
    obtain ⟨hc, hl, hr⟩ := hwf
    subst hc
    rw [generate_huffman_code, if_neg (by decide), List.dropLast_concat]
    rw [List.pairwise_append]
    refine ⟨ihl hl _, ihr hr _, ?_⟩
    intro e1 he1 e2 he2
    obtain ⟨q1, hq1⟩ := genCode_extend hl (p ++ [0]) e1 he1
    obtain ⟨q2, hq2⟩ := genCode_extend hr (p ++ [1]) e2 he2
    have h1 : e1.2 = p ++ 0 :: q1 := by simp [hq1]
    have h2 : e2.2 = p ++ 1 :: q2 := by simp [hq2]
    rw [h1, h2]
    exact ⟨not_head_cross (by omega), not_head_cross (by omega)⟩

theorem hmGet_isSome {κ β : Type} [DecidableEq κ] {m : List (κ × β)} {k : κ}
    (h : k ∈ m.map Prod.fst) : (hmGet m k).isSome := by
  obtain ⟨q, hq, rfl⟩ := List.mem_map.mp h
  have hmem : q ∈ m.filter (fun r => decide (r.1 = q.1)) :=
    List.mem_filter.mpr ⟨hq, by simp⟩
  have hne : m.filter (fun r => decide (r.1 = q.1)) ≠ [] :=
    List.ne_nil_of_mem hmem
  have hsome := List.getLast?_isSome.mpr hne
  unfold hmGet
  cases hf : (m.filter (fun r => decide (r.1 = q.1))).getLast? with
  | none => rw [hf] at hsome; simp at hsome
  | some q' => rfl

theorem hmGet_none {κ β : Type} [DecidableEq κ] {m : List (κ × β)} {k : κ}
    (h : k ∉ m.map Prod.fst) : hmGet m k = none := by
  have hf : m.filter (fun r => decide (r.1 = k)) = [] := by
    rw [List.filter_eq_nil_iff]
    intro q hq hcon
    simp at hcon
    exact h (List.mem_map.mpr ⟨q, hq, hcon⟩)
  unfold hmGet
  simp [hf]

theorem hmGet_mem {κ β : Type} [DecidableEq κ] {m : List (κ × β)} {k : κ}
    {v : β} (h : hmGet m k = some v) : (k, v) ∈ m := by
  unfold hmGet at h
  cases hf : (m.filter (fun r => decide (r.1 = k))).getLast? with
  | none => rw [hf] at h; simp at h
  | some q =>
    rw [hf] at h
    simp at h
    have hq := List.mem_filter.mp (mem_of_getLast?_eq hf)
    have : q = (k, v) := by
      obtain ⟨h1, h2⟩ := hq
      simp at h2
      cases q
      simp_all
    rw [← this]
    exact hq.1

theorem freqStep_keys_mem (m : List (Nat × Nat)) (ch x : Nat)
    (hx : x ∈ m.map Prod.fst) : x ∈ (freqStep m ch).map Prod.fst := by
  unfold freqStep
  split
  · obtain ⟨p, hp, rfl⟩ := List.mem_map.mp hx
    apply List.mem_map.mpr
    refine ⟨if p.1 = ch then (p.1, p.2 + 1) else p, List.mem_map.mpr ⟨p, hp, rfl⟩, ?_⟩
    split
    · next heq => simp [heq]
    · rfl
  · simp only [List.map_append]
    exact List.mem_append.mpr (Or.inl hx)

theorem freqStep_keys_self (m : List (Nat × Nat)) (ch : Nat) :
    ch ∈ (freqStep m ch).map Prod.fst := by
  unfold freqStep
  split
  · next hany =>
    rw [List.any_eq_true] at hany
    obtain ⟨p, hp, hp1⟩ := hany
    simp at hp1
    apply List.mem_map.mpr
    exact ⟨if p.1 = ch then (p.1, p.2 + 1) else p,
      List.mem_map.mpr ⟨p, hp, rfl⟩, by simp [hp1]⟩
  · simp

theorem mem_freqFrom_keys {B : List Nat} {b : Nat} (hb : b ∈ B) :
    b ∈ (freqFrom B).map Prod.fst := by
  unfold freqFrom
  suffices h : ∀ (acc : List (Nat × Nat)),
      b ∈ B ∨ b ∈ acc.map Prod.fst → b ∈ (B.foldl freqStep acc).map Prod.fst by
    exact h [] (Or.inl hb)
  clear hb
  induction B with
  | nil =>
    intro acc h
    rcases h with h | h
    · simp at h
    · simpa using h
  | cons c B' ih =>
    intro acc h
    rw [List.foldl_cons]
    apply ih
    rcases h with h | h
    · rcases List.mem_cons.mp h with rfl | hmem
      · exact Or.inr (freqStep_keys_self acc b)
      · exact Or.inl hmem
    · exact Or.inr (freqStep_keys_mem acc c b h)

theorem mapM_option_isSome {α β : Type} (f : α → Option β) :
    ∀ (l : List α), (∀ a ∈ l, (f a).isSome) → (l.mapM f).isSome := by
  intro l
  induction l with
  | nil => intro _; rfl
  | cons a l ih =>
    intro h
    rw [List.mapM_cons]
    cases hfa : f a with
    | none => exact absurd (hfa ▸ h a (by simp)) (by simp)
    | some b =>
      cases hrest : l.mapM f with
      | none =>
        have := ih (fun x hx => h x (by simp [hx]))
        rw [hrest] at this
        simp at this
      | some bs => simp [Option.bind, hfa, hrest]

/-- Claim C9: for every frequency table, `create_huffman_tree` terminates
and returns a tree without panicking.  Termination is the totality of the
model (the fuel `trees.length` provably suffices); the absence of both the
final `pop().unwrap()` panic and the empty-forest infinite loop is
`isSome` of the result. -/
theorem create_huffman_tree_total (fl : List (Nat × Nat)) :
    (create_huffman_tree fl).isSome = true :=
  create_huffman_tree_isSome fl

/-- Claim C3 (amended): for every *non-empty* frequency table, the tree
returned by `create_huffman_tree` has at least 2 leaves (in fact exactly
one more leaf than the table has entries, because of the zero-weight
placeholder).  The original claim also asserted this for the empty
frequency table, where the forest consists of the placeholder alone and
the result is a single leaf (see the counterexample). -/
theorem create_huffman_tree_two_leaves (fl : List (Nat × Nat))
    (hne : fl ≠ []) (t : HuffmanTree)
    (h : create_huffman_tree fl = some t) : 2 ≤ numLeaves t := by
  rw [create_numLeaves h]
  have := List.length_pos.mpr hne
  omega

/-- Witness for `create_huffman_tree_two_leaves` at the one-entry
frequency table `[(7, 1)]`. -/
theorem create_huffman_tree_two_leaves_witness :
    2 ≤ numLeaves (singleSymbolTree 7 1) :=
  create_huffman_tree_two_leaves [(7, 1)] (by decide) (singleSymbolTree 7 1)
    (by decide)

/-- Claim C2 (amended): for every input whose bytes are all non-zero, the
encode table generated from that input's own frequency table has an entry
for every byte of the input, and hence the per-byte lookup during packing
(`codes.get(&ch).unwrap()`) never fails: `code_original_file` succeeds.
The original claim, for *every* input, fails on inputs containing byte 0
(see the counterexample): byte 0 collides with the internal-node sentinel
and never receives a code. -/
theorem codes_cover_nonzero_input (B : List Nat) (h0 : ∀ b ∈ B, b ≠ 0)
    (t : HuffmanTree) (ht : create_huffman_tree (freqFrom B) = some t) :
    (∀ b ∈ B, (hmGet (generate_huffman_code [] t) b).isSome = true) ∧
    (code_original_file B (generate_huffman_code [] t)).isSome = true := by
  have hwf := create_wf ht
  have hkeys := genCode_keys hwf []
  have hperm := create_leafChs ht
  have hmem : ∀ b ∈ B, b ∈ (generate_huffman_code [] t).map Prod.fst := by
    intro b hb
    rw [hkeys]
    apply List.mem_filter.mpr
    refine ⟨?_, by simp [h0 b hb]⟩
    exact hperm.mem_iff.mpr (List.mem_append.mpr (Or.inl (mem_freqFrom_keys hb)))
  refine ⟨fun b hb => hmGet_isSome (hmem b hb), ?_⟩
  unfold code_original_file bitStream
  have hm := mapM_option_isSome (hmGet (generate_huffman_code [] t)) B
    (fun b hb => hmGet_isSome (hmem b hb))
  cases hmm : B.mapM (hmGet (generate_huffman_code [] t)) with
  | none => rw [hmm] at hm; simp at hm
  | some bits => simp [hmm]

/-- Witness for `codes_cover_nonzero_input` at the input `[97]`. -/
theorem codes_cover_nonzero_input_witness :
    (hmGet (generate_huffman_code [] (singleSymbolTree 97 1)) 97).isSome = true ∧
    (code_original_file [97]
      (generate_huffman_code [] (singleSymbolTree 97 1))).isSome = true := by
  have h := codes_cover_nonzero_input [97] (by decide) (singleSymbolTree 97 1)
    (by decide)
  exact ⟨h.1 97 (by decide), h.2⟩

/-- Claim C10: byte value 0 is conflated with the `ch = 0` sentinel used
for internal nodes and the placeholder leaf: `generate_huffman_code`
records codes only for non-zero symbols, so for inputs of non-zero bytes
every input byte has a table entry, while byte 0 never does. -/
theorem byte0_sentinel_conflation :
    (∀ (B : List Nat) (t : HuffmanTree) (b : Nat),
        create_huffman_tree (freqFrom B) = some t → b ∈ B → b ≠ 0 →
        (hmGet (generate_huffman_code [] t) b).isSome = true) ∧
    (∀ (B : List Nat) (t : HuffmanTree),
        create_huffman_tree (freqFrom B) = some t → 0 ∈ B →
        hmGet (generate_huffman_code [] t) 0 = none) := by
  constructor
  · intro B t b ht hb hb0
    have hwf := create_wf ht
    apply hmGet_isSome
    rw [genCode_keys hwf []]
    apply List.mem_filter.mpr
    refine ⟨?_, by simp [hb0]⟩
    exact (create_leafChs ht).mem_iff.mpr
      (List.mem_append.mpr (Or.inl (mem_freqFrom_keys hb)))
  · intro B t ht _
    have hwf := create_wf ht
    apply hmGet_none
    rw [genCode_keys hwf []]
    intro hcon
    have := (List.mem_filter.mp hcon).2
    simp at this

/-- Witness for `byte0_sentinel_conflation`: byte 5 (non-zero) is covered
for the input `[5]`, and byte 0 has no entry for the input `[0, 1]`. -/
theorem byte0_sentinel_conflation_witness :
    (hmGet (generate_huffman_code [] (singleSymbolTree 5 1)) 5).isSome = true ∧
    hmGet (generate_huffman_code []
      (HuffmanTree.nodeLR 0 2
        (HuffmanTree.nodeLR 0 1 (HuffmanTree.leafN 0 0) (HuffmanTree.leafN 1 1))
        (HuffmanTree.leafN 0 1))) 0 = none := by
  refine ⟨byte0_sentinel_conflation.1 [5] (singleSymbolTree 5 1) 5 (by decide)
    (by decide) (by decide), ?_⟩
  exact byte0_sentinel_conflation.2 [0, 1]
    (HuffmanTree.nodeLR 0 2
      (HuffmanTree.nodeLR 0 1 (HuffmanTree.leafN 0 0) (HuffmanTree.leafN 1 1))
      (HuffmanTree.leafN 0 1)) (by decide) (by decide)

/-- Claim C6: for every input byte sequence, the encode table generated
from its Huffman tree is prefix-free: the codes of two distinct symbols
are never initial segments of one another. -/
theorem generated_codes_head_free (B : List Nat) (t : HuffmanTree)
    (ht : create_huffman_tree (freqFrom B) = some t)
    (s1 s2 : Nat) (c1 c2 : List Nat)
    (h1 : hmGet (generate_huffman_code [] t) s1 = some c1)
    (h2 : hmGet (generate_huffman_code [] t) s2 = some c2)
    (hne : s1 ≠ s2) : ¬ isHeadOf c1 c2 := by
  have hwf := create_wf ht
  have hp := genCode_pairwise hwf []
  have hsym : Symmetric (fun (e1 e2 : Nat × List Nat) =>
      ¬ isHeadOf e1.2 e2.2 ∧ ¬ isHeadOf e2.2 e1.2) :=
    fun a b h => ⟨h.2, h.1⟩
  have hne' : ((s1, c1) : Nat × List Nat) ≠ (s2, c2) := by
    intro hc
    exact hne (congrArg Prod.fst hc)
  exact (hp.forall hsym (hmGet_mem h1) (hmGet_mem h2) hne').1

/-- Witness for `generated_codes_head_free` at the input `[97, 98]`, whose
table maps 98 to `[0, 1]` and 97 to `[1]`. -/
theorem generated_codes_head_free_witness :
    ¬ isHeadOf [0, 1] [1] :=
  generated_codes_head_free [97, 98]
    (HuffmanTree.nodeLR 0 2
      (HuffmanTree.nodeLR 0 1 (HuffmanTree.leafN 0 0) (HuffmanTree.leafN 98 1))
      (HuffmanTree.leafN 97 1))
    (by decide) 98 97 [0, 1] [1] (by decide) (by decide) (by decide)

/-- Claim C1 (falsified by the code): the full compress/decompress
pipeline does not reproduce the input `"aabbbbccccc"`.  Symbol 99 gets the
all-zeros code `[0]`, the 19 encoded bits are padded to 24 with zero bits,
and each padding bit decodes as one spurious extra 99. -/
theorem roundTrip_fails_on_aabbbbccccc :
    roundTrip [97, 97, 98, 98, 98, 98, 99, 99, 99, 99, 99] =
      some ([97, 97, 98, 98, 98, 98] ++ List.replicate 10 99) ∧
    roundTrip [97, 97, 98, 98, 98, 98, 99, 99, 99, 99, 99] ≠
      some [97, 97, 98, 98, 98, 98, 99, 99, 99, 99, 99] := by decide

/-- Counterexample to claim C2 as stated: for the input `[0]` the
generated table has no entry for byte 0 (which is present in the input),
and packing panics (`none`). -/
theorem codes_missing_byte0_cex :
    create_huffman_tree (freqFrom [0]) =
      some (HuffmanTree.nodeLR 0 1 (HuffmanTree.leafN 0 0) (HuffmanTree.leafN 0 1)) ∧
    hmGet (generate_huffman_code []
      (HuffmanTree.nodeLR 0 1 (HuffmanTree.leafN 0 0) (HuffmanTree.leafN 0 1))) 0 = none ∧
    code_original_file [0] (generate_huffman_code []
      (HuffmanTree.nodeLR 0 1 (HuffmanTree.leafN 0 0) (HuffmanTree.leafN 0 1))) = none := by
  decide

/-- Counterexample to claim C3 as stated: for the empty frequency table
the forest is the placeholder alone, no merge happens, and the resulting
tree is a single leaf — not at least 2 leaves. -/
theorem create_empty_single_leaf_cex :
    create_huffman_tree [] = some (HuffmanTree.leafN 0 0) ∧
    ¬ 2 ≤ numLeaves (HuffmanTree.leafN 0 0) := by decide

/-- Counterexample to claim C4 as stated: the record `"a:2"` (code field
with a non-binary character) and the record `"a"` (no `':'` separator with
a one-character symbol field) both make deserialization panic
(`to_digit(2).unwrap()` / `line.get(1).unwrap()`), i.e. abort abnormally
instead of returning a parse error. -/
theorem parse_malformed_panics_cex :
    generate_code_table_from_file [97, 58, 50, 10] = none ∧
    generate_code_table_from_file [97, 10] = none := by decide

/-- Counterexample to claim C5 as stated: the one-entry table mapping
symbol `'\n'` (byte 10) to code `[0]` serializes to `"\n:0\n"`, whose
first line is empty, so deserialization returns a parse error instead of
the original bitstring-symbol pair. -/
theorem serialize_newline_symbol_cex :
    generate_code_table_from_file (write_code2file [(10, [0])]) =
      some (Except.error ()) := by decide

/-- Counterexample to claim C8 as stated: for the input `[0, 0]`
(repetitions of the single byte value 0) tree construction succeeds but
the table assigns byte 0 no code at all, in particular no one-bit code. -/
theorem single_byte0_no_code_cex :
    create_huffman_tree (freqFrom [0, 0]) =
      some (HuffmanTree.nodeLR 0 2 (HuffmanTree.leafN 0 0) (HuffmanTree.leafN 0 2)) ∧
    hmGet (generate_huffman_code []
      (HuffmanTree.nodeLR 0 2 (HuffmanTree.leafN 0 0) (HuffmanTree.leafN 0 2))) 0 = none := by
  decide

theorem allBitLists_mem :
    ∀ (n : Nat) (g : List Nat), (∀ x ∈ g, x = 0 ∨ x = 1) → g.length ≤ n →
      g ∈ allBitLists n := by
  intro n
  induction n with
  | zero =>
    intro g _ hlen
    have hg : g = [] := List.length_eq_zero.mp (by omega)
    subst hg
    simp [allBitLists]
  | succ n ih =>
    intro g hg hlen
    rcases g with _ | ⟨b, g'⟩
    · simp [allBitLists]
    · have hmem := ih g' (fun x hx => hg x (by simp [hx])) (by simp at hlen; omega)
      rcases hg b (by simp) with rfl | rfl
      · exact List.mem_cons.mpr (Or.inr (List.mem_append.mpr (Or.inl
          (List.mem_map.mpr ⟨g', hmem, rfl⟩))))
      · exact List.mem_cons.mpr (Or.inr (List.mem_append.mpr (Or.inr
          (List.mem_map.mpr ⟨g', hmem, rfl⟩))))

set_option maxRecDepth 100000 in
theorem toByte_testBit_enum :
    ∀ g ∈ allBitLists 8, ∀ k ∈ List.range 8,
      ((toByte g).testBit (7 - k) = true ↔ (k < g.length ∧ g.getD k 0 = 1)) := by
  decide

set_option maxRecDepth 100000 in
theorem d2b_toByte_enum :
    ∀ g ∈ allBitLists 8, g ≠ [] →
      d2b (toByte g) = g ++ List.replicate (8 - g.length) 0 := by
  decide

theorem chunk8_eq :
    ∀ (l : List Nat), l ≠ [] → chunk8 l = l.take 8 :: chunk8 (l.drop 8)
  | [], h => absurd rfl h
  | [_], _ => rfl
  | [_, _], _ => rfl
  | [_, _, _], _ => rfl
  | [_, _, _, _], _ => rfl
  | [_, _, _, _, _], _ => rfl
  | [_, _, _, _, _, _], _ => rfl
  | [_, _, _, _, _, _, _], _ => rfl
  | _ :: _ :: _ :: _ :: _ :: _ :: _ :: _ :: _, _ => rfl

theorem chunk8_length : ∀ (l : List Nat), (chunk8 l).length = (l.length + 7) / 8
  | [] => by simp [chunk8]
  | a :: l => by
    rw [chunk8_eq (a :: l) (by simp)]
    have ih := chunk8_length ((a :: l).drop 8)
    simp only [List.length_cons, List.length_drop] at ih ⊢
    rw [ih]
    omega
termination_by l => l.length
decreasing_by simp [List.length_drop]; omega

theorem chunk8_getElem? :
    ∀ (l : List Nat) (j : Nat), j < (chunk8 l).length →
      (chunk8 l)[j]? = some ((l.drop (8 * j)).take 8)
  | [], j => by simp [chunk8]
  | a :: l', j => by
    intro hj
    rw [chunk8_eq (a :: l') (by simp)] at hj ⊢
    rcases j with _ | j'
    · simp
    · simp only [List.getElem?_cons_succ]
      rw [List.length_cons] at hj
      have hj' : j' < (chunk8 ((a :: l').drop 8)).length :=
        Nat.lt_of_succ_lt_succ hj
      have hrec := chunk8_getElem? ((a :: l').drop 8) j' hj'
      have harg : ((a :: l').drop 8).drop (8 * j') = (a :: l').drop (8 * (j' + 1)) := by
        rw [List.drop_drop]
        congr 1
        omega
      rw [hrec, harg]
termination_by l _ => l.length
decreasing_by simp [List.length_drop]; omega

theorem chunk8_mem :
    ∀ (l : List Nat), ∀ g ∈ chunk8 l,
      (∀ x ∈ g, x ∈ l) ∧ g ≠ [] ∧ g.length ≤ 8
  | [] => by simp [chunk8]
  | a :: l' => by
    intro g hg
    rw [chunk8_eq (a :: l') (by simp)] at hg
    rcases List.mem_cons.mp hg with rfl | hmem
    · refine ⟨fun x hx => List.take_subset _ _ hx, ?_, ?_⟩
      · simp
      · simp [List.length_take]
    · have := chunk8_mem ((a :: l').drop 8) g hmem
      exact ⟨fun x hx => List.drop_subset _ _ (this.1 x hx), this.2⟩
termination_by l => l.length
decreasing_by simp [List.length_drop]; omega

theorem mapM_option_values {α β : Type} (f : α → Option β) :
    ∀ (l : List α) (cs : List β), l.mapM f = some cs →
      ∀ c ∈ cs, ∃ a ∈ l, f a = some c := by
  intro l
  induction l with
  | nil =>
    intro cs h c hc
    rw [List.mapM_nil] at h
    have : cs = [] := by simpa using h.symm
    subst this
    simp at hc
  | cons a l ih =>
    intro cs h c hc
    rw [List.mapM_cons] at h
    cases hfa : f a with
    | none => rw [hfa] at h; simp at h
    | some b =>
      rw [hfa] at h
      cases hrest : l.mapM f with
      | none => rw [hrest] at h; simp [Option.bind] at h
      | some bs =>
        rw [hrest] at h
        simp [Option.bind] at h
        subst h
        rcases List.mem_cons.mp hc with rfl | hmem
        · exact ⟨a, by simp, hfa⟩
        · obtain ⟨a', ha', hfa'⟩ := ih bs hrest c hmem
          exact ⟨a', by simp [ha'], hfa'⟩

theorem bitStream_bits (buff : List Nat) (codes : List (Nat × List Nat))
    (hbits : ∀ p ∈ codes, ∀ x ∈ p.2, x = 0 ∨ x = 1)
    (bits : List Nat) (hb : bitStream buff codes = some bits) :
    ∀ x ∈ bits, x = 0 ∨ x = 1 := by
  unfold bitStream at hb
  cases hm : buff.mapM (hmGet codes) with
  | none => rw [hm] at hb; simp at hb
  | some cs =>
    rw [hm] at hb
    simp at hb
    subst hb
    intro x hx
    obtain ⟨c, hc, hxc⟩ := List.mem_flatten.mp hx
    obtain ⟨a, _, hfa⟩ := mapM_option_values (hmGet codes) buff cs hm c hc
    exact hbits _ (hmGet_mem hfa) x hxc

/-- Claim C7: for every input and every bit-valued code table covering its
bytes, the packed output of `code_original_file` is the concatenated code
bits of the input (the `bitStream`), split into groups of 8, where bit
`k` of a group becomes bit `7 - k` of the output byte and the remaining
low-order bits of a short final group are 0; the packed length is
`⌈total bits / 8⌉`. -/
theorem code_original_file_packing (buff : List Nat)
    (codes : List (Nat × List Nat))
    (hbits : ∀ p ∈ codes, ∀ x ∈ p.2, x = 0 ∨ x = 1)
    (bits out : List Nat)
    (hb : bitStream buff codes = some bits)
    (ho : code_original_file buff codes = some out) :
    out.length = (bits.length + 7) / 8 ∧
    ∀ j k : Nat, j < out.length → k < 8 →
      ((out.getD j 0).testBit (7 - k) = true ↔
        (8 * j + k < bits.length ∧ bits.getD (8 * j + k) 0 = 1)) := by
  have hout : out = (chunk8 bits).map toByte := by
    unfold code_original_file at ho
    rw [hb] at ho
    simpa using ho.symm
  subst hout
  refine ⟨by simp [chunk8_length], ?_⟩
  intro j k hj hk
  rw [List.length_map] at hj
  have hget := chunk8_getElem? bits j hj
  set g := (bits.drop (8 * j)).take 8 with hgdef
  have hgmem : g ∈ chunk8 bits := List.getElem?_mem hget
  have hchar := chunk8_mem bits g hgmem
  have hgbits : ∀ x ∈ g, x = 0 ∨ x = 1 := fun x hx =>
    bitStream_bits buff codes hbits bits hb x (hchar.1 x hx)
  have htb := toByte_testBit_enum g (allBitLists_mem 8 g hgbits hchar.2.2) k
    (List.mem_range.mpr hk)
  have hmapD : ((chunk8 bits).map toByte).getD j 0 = toByte g := by
    rw [List.getD_eq_getElem?_getD, List.getElem?_map, hget]
    rfl
  rw [hmapD, htb]
  have hglen : g.length = min 8 (bits.length - 8 * j) := by
    simp [hgdef, List.length_take, List.length_drop]
  have hjlen : j < (bits.length + 7) / 8 := by
    rw [← chunk8_length]; exact hj
  have hgd : k < g.length → g.getD k 0 = bits.getD (8 * j + k) 0 := by
    intro _
    rw [List.getD_eq_getElem?_getD, List.getD_eq_getElem?_getD, hgdef,
      List.getElem?_take, if_pos hk, List.getElem?_drop]
  constructor
  · rintro ⟨h1, h2⟩
    exact ⟨by omega, by rw [← hgd h1]; exact h2⟩
  · rintro ⟨h1, h2⟩
    have hkg : k < g.length := by omega
    exact ⟨hkg, by rw [hgd hkg]; exact h2⟩

/-- Witness for `code_original_file_packing` at `buff = [97]` with
table `[(97, [1, 0])]`: the packed output is `[128]` and bit 7 of the
byte is the first code bit. -/
theorem code_original_file_packing_witness :
    ([128] : List Nat).length = (([1, 0] : List Nat).length + 7) / 8 ∧
    ((([128] : List Nat).getD 0 0).testBit (7 - 0) = true ↔
      (8 * 0 + 0 < ([1, 0] : List Nat).length ∧
        ([1, 0] : List Nat).getD (8 * 0 + 0) 0 = 1)) := by
  have h := code_original_file_packing [97] [(97, [1, 0])] (by decide)
    [1, 0] [128] (by decide) (by decide)
  exact ⟨h.1, h.2 0 0 (by decide) (by decide)⟩

theorem foldl_freqStep_replicate (b : Nat) :
    ∀ (m k : Nat), List.foldl freqStep [(b, k)] (List.replicate m b) = [(b, k + m)] := by
  intro m
  induction m with
  | zero => intro k; simp
  | succ m ih =>
    intro k
    rw [List.replicate_succ, List.foldl_cons]
    have hstep : freqStep [(b, k)] b = [(b, k + 1)] := by
      simp [freqStep]
    rw [hstep, ih, show k + 1 + m = k + (m + 1) by omega]

theorem freqFrom_replicate (b n : Nat) (hn : 1 ≤ n) :
    freqFrom (List.replicate n b) = [(b, n)] := by
  obtain ⟨m, rfl⟩ : ∃ m, n = m + 1 := ⟨n - 1, by omega⟩
  unfold freqFrom
  rw [show m + 1 = 1 + m by omega, List.replicate_add, List.foldl_append]
  have h1 : List.foldl freqStep [] (List.replicate 1 b) = [(b, 1)] := by
    simp [freqStep]
  rw [h1, foldl_freqStep_replicate, show 1 + m = m + 1 by omega]

theorem create_single (b n : Nat) :
    create_huffman_tree [(b, n)] = some (singleSymbolTree b n) := by
  unfold create_huffman_tree
  simp [sortDesc, insertDesc, HuffmanTree.wt, huffLoopAux,
    HuffmanTree.merge_hufftree, singleSymbolTree]

theorem genCode_single (b n : Nat) (hb : b ≠ 0) :
    generate_huffman_code [] (singleSymbolTree b n) = [(b, [1])] := by
  simp [generate_huffman_code, singleSymbolTree, hb]

theorem mapM_option_replicate {α β : Type} (f : α → Option β) (a : α) (c : β)
    (hfa : f a = some c) :
    ∀ (n : Nat), (List.replicate n a).mapM f = some (List.replicate n c) := by
  intro n
  induction n with
  | zero => rfl
  | succ n ih =>
    rw [List.replicate_succ, List.mapM_cons, hfa, ih]
    rfl

theorem flatten_replicate_singleton (c : Nat) :
    ∀ (n : Nat), (List.replicate n [c]).flatten = List.replicate n c := by
  intro n
  induction n with
  | zero => rfl
  | succ n ih => simp [List.replicate_succ, ih]

theorem pack_single (b n : Nat) :
    code_original_file (List.replicate n b) [(b, [1])] =
      some ((chunk8 (List.replicate n 1)).map toByte) := by
  unfold code_original_file bitStream
  have hget : hmGet [(b, [1])] b = some [1] := by
    simp [hmGet]
  rw [mapM_option_replicate (hmGet [(b, [1])]) b [1] hget n]
  simp [flatten_replicate_singleton]

theorem unpack_pack_ones :
    ∀ (n : Nat), ∃ kpad, kpad ≤ 8 ∧
      ((((chunk8 (List.replicate n 1)).map toByte).map d2b).flatten =
        List.replicate n 1 ++ List.replicate kpad 0)
  | 0 => ⟨0, by simp [chunk8]⟩
  | n + 1 => by
    by_cases h8 : n + 1 ≤ 8
    · refine ⟨8 - (n + 1), by omega, ?_⟩
      have hlen : (List.replicate (n + 1) 1).length = n + 1 := by simp
      have hchunk : chunk8 (List.replicate (n + 1) 1) = [List.replicate (n + 1) 1] := by
        rw [chunk8_eq _ (by simp)]
        rw [List.take_of_length_le (by simp; omega),
          List.drop_eq_nil_of_le (by simp; omega)]
        rfl
      rw [hchunk]
      simp only [List.map_cons, List.map_nil, List.flatten_cons, List.flatten_nil,
        List.append_nil]
      have := d2b_toByte_enum (List.replicate (n + 1) 1)
        (allBitLists_mem 8 _ (fun x hx => Or.inr (List.eq_of_mem_replicate hx)) (by simp; omega))
        (by simp)
      rw [this, hlen]
    · have hsplit : List.replicate (n + 1) 1 =
          List.replicate 8 1 ++ List.replicate (n + 1 - 8) 1 := by
        rw [← List.replicate_add]
        congr 1
        omega
      obtain ⟨kpad, hk, ih⟩ := unpack_pack_ones (n + 1 - 8)
      refine ⟨kpad, hk, ?_⟩
      rw [hsplit, chunk8_eq _ (by simp)]
      have ht : (List.replicate 8 1 ++ List.replicate (n + 1 - 8) 1).take 8 =
          List.replicate 8 1 := by
        rw [List.take_append_of_le_length (by simp)]
        simp
      have hd : (List.replicate 8 1 ++ List.replicate (n + 1 - 8) 1).drop 8 =
          List.replicate (n + 1 - 8) 1 := by
        rw [List.drop_append_of_le_length (by simp)]
        simp
      rw [ht, hd]
      simp only [List.map_cons, List.flatten_cons]
      rw [ih]
      have h255 : d2b (toByte (List.replicate 8 1)) = List.replicate 8 1 := by decide
      rw [h255, ← List.append_assoc]
termination_by n => n
decreasing_by omega

theorem decode_zeros (b : Nat) :
    ∀ (zs w : List Nat), (∀ z ∈ zs, z = 0) → (∀ x ∈ w, x = 0) →
      decodeAux [([1], b)] w zs = [] := by
  intro zs
  induction zs with
  | nil => intro w _ _; rfl
  | cons z zs ih =>
    intro w hz hw
    have hz0 : z = 0 := hz z (by simp)
    subst hz0
    have hw' : ∀ x ∈ w ++ [0], x = 0 := by
      intro x hx
      rcases List.mem_append.mp hx with h | h
      · exact hw x h
      · simpa using h
    have hnone : hmGet [(([1] : List Nat), b)] (w ++ [0]) = none := by
      apply hmGet_none
      simp only [List.map_cons, List.map_nil]
      intro hcon
      have h1 : w ++ [0] = [1] := by simpa using hcon
      have h2 := congrArg List.getLast? h1
      rw [List.getLast?_concat] at h2
      simp at h2
    unfold decodeAux
    rw [hnone]
    exact ih (w ++ [0]) (fun x hx => hz x (by simp [hx])) hw'

theorem decode_ones (b : Nat) :
    ∀ (n : Nat) (zs : List Nat), (∀ z ∈ zs, z = 0) →
      decodeAux [([1], b)] [] (List.replicate n 1 ++ zs) = List.replicate n b := by
  intro n
  induction n with
  | zero =>
    intro zs hz
    simpa using decode_zeros b zs [] hz (by simp)
  | succ n ih =>
    intro zs hz
    rw [List.replicate_succ, List.cons_append]
    unfold decodeAux
    have hsome : hmGet [(([1] : List Nat), b)] ([] ++ [1]) = some b := by
      simp [hmGet]
    rw [hsome, ih zs hz]
    rfl

/-- Claim C8 (amended): for every non-empty input consisting of
repetitions of a single *non-zero* byte value, tree construction
succeeds, the table assigns that byte the one-bit code `[1]`, and packing
followed by decoding (against the inverted table) reproduces the input.
For byte value 0 the table assigns no code at all (see the
counterexample). -/
theorem single_symbol_roundtrip (b n : Nat) (hb : b ≠ 0) (hn : 1 ≤ n) :
    create_huffman_tree (freqFrom (List.replicate n b)) =
      some (singleSymbolTree b n) ∧
    generate_huffman_code [] (singleSymbolTree b n) = [(b, [1])] ∧
    code_original_file (List.replicate n b) [(b, [1])] =
      some ((chunk8 (List.replicate n 1)).map toByte) ∧
    decode (invertTable [(b, [1])])
      ((((chunk8 (List.replicate n 1)).map toByte).map d2b).flatten) =
      List.replicate n b := by
  refine ⟨?_, genCode_single b n hb, pack_single b n, ?_⟩
  · rw [freqFrom_replicate b n hn]
    exact create_single b n
  · obtain ⟨kpad, _, hunp⟩ := unpack_pack_ones n
    rw [hunp]
    unfold decode invertTable
    simpa using decode_ones b n (List.replicate kpad 0) (by simp)

/-- Witness for `single_symbol_roundtrip` at `b = 97`, `n = 3`. -/
theorem single_symbol_roundtrip_witness :
    create_huffman_tree (freqFrom (List.replicate 3 97)) =
      some (singleSymbolTree 97 3) ∧
    generate_huffman_code [] (singleSymbolTree 97 3) = [(97, [1])] ∧
    code_original_file (List.replicate 3 97) [(97, [1])] =
      some ((chunk8 (List.replicate 3 1)).map toByte) ∧
    decode (invertTable [(97, [1])])
      ((((chunk8 (List.replicate 3 1)).map toByte).map d2b).flatten) =
      List.replicate 3 97 :=
  single_symbol_roundtrip 97 3 (by decide) (by decide)

theorem splitOnNat_ne_nil (sep : Nat) : ∀ (l : List Nat), splitOnNat sep l ≠ [] := by
  intro l
  induction l with
  | nil => simp [splitOnNat]
  | cons c cs ih =>
    unfold splitOnNat
    split
    · simp
    · cases hr : splitOnNat sep cs with
      | nil => simp
      | cons h t => simp

theorem splitOnNat_no_sep (sep : Nat) :
    ∀ (l : List Nat), (∀ c ∈ l, c ≠ sep) → splitOnNat sep l = [l] := by
  intro l
  induction l with
  | nil => intro _; rfl
  | cons c cs ih =>
    intro h
    unfold splitOnNat
    rw [if_neg (h c (by simp))]
    rw [ih (fun x hx => h x (by simp [hx]))]

theorem splitOnNat_append_sep (sep : Nat) :
    ∀ (l rest : List Nat), (∀ c ∈ l, c ≠ sep) →
      splitOnNat sep (l ++ sep :: rest) = l :: splitOnNat sep rest := by
  intro l
  induction l with
  | nil =>
    intro rest _
    simp [splitOnNat]
  | cons c cs ih =>
    intro rest h
    rw [List.cons_append]
    conv_lhs => rw [splitOnNat]
    rw [if_neg (h c (by simp))]
    rw [ih rest (fun x hx => h x (by simp [hx]))]

theorem utf8DecodeAux_ascii :
    ∀ (fuel : Nat) (bs : List Nat), (∀ b ∈ bs, b < 128) →
      bs.length ≤ fuel → utf8DecodeAux fuel bs = some bs := by
  intro fuel
  induction fuel with
  | zero =>
    intro bs _ hlen
    have : bs = [] := List.length_eq_zero.mp (by omega)
    subst this
    rfl
  | succ fuel ih =>
    intro bs hb hlen
    rcases bs with _ | ⟨b, bs'⟩
    · rfl
    · have hstep : utf8Step b bs' = some (b, 0) := by
        unfold utf8Step
        rw [if_pos (hb b (by simp))]
      unfold utf8DecodeAux
      rw [hstep]
      simp only [List.drop_zero]
      rw [ih bs' (fun x hx => hb x (by simp [hx])) (by simp at hlen; omega)]
      rfl

theorem utf8_ascii (bs : List Nat) (h : ∀ b ∈ bs, b < 128) :
    utf8Decode bs = some bs :=
  utf8DecodeAux_ascii bs.length bs h (Nat.le_refl _)

theorem linesOfBytes_cons (l rest : List Nat) (h10 : ∀ c ∈ l, c ≠ 10)
    (h13 : l.getLast? ≠ some 13) :
    linesOfBytes (l ++ 10 :: rest) = l :: linesOfBytes rest := by
  cases hp : splitOnNat 10 rest with
  | nil => exact absurd hp (splitOnNat_ne_nil 10 rest)
  | cons ph pt =>
    unfold linesOfBytes
    rw [splitOnNat_append_sep 10 l rest h10, hp]
    simp only [List.dropLast_cons₂, List.map_cons, List.getLast?_cons_cons,
      List.cons_append]
    rw [show strip13 l = l from by unfold strip13; rw [if_neg h13]]

theorem linesOfBytes_records :
    ∀ (L : List (List Nat)),
      (∀ l ∈ L, (∀ c ∈ l, c ≠ 10) ∧ l.getLast? ≠ some 13) →
      linesOfBytes ((L.map (fun r => r ++ [10])).flatten) = L := by
  intro L
  induction L with
  | nil => intro _; rfl
  | cons l L' ih =>
    intro h
    have hl := h l (by simp)
    have hbytes : ((l :: L').map (fun r => r ++ [10])).flatten =
        l ++ 10 :: (L'.map (fun r => r ++ [10])).flatten := by
      simp
    rw [hbytes, linesOfBytes_cons l _ hl.1 hl.2,
      ih (fun x hx => h x (by simp [hx]))]

theorem parseLine_record (s : Nat) (c : List Nat) (hs58 : s ≠ 58)
    (hc : ∀ x ∈ c, x = 0 ∨ x = 1) :
    parseLine (s :: 58 :: c.map (fun x => (x + 48) % 256)) =
      some (Except.ok (s % 256, c)) := by
  have hno58 : ∀ x ∈ c.map (fun x => (x + 48) % 256), x ≠ 58 := by
    intro x hx
    obtain ⟨b, hb, rfl⟩ := List.mem_map.mp hx
    rcases hc b hb with rfl | rfl <;> decide
  have hsplit : splitOnNat 58 (s :: 58 :: c.map (fun x => (x + 48) % 256)) =
      [s] :: [c.map (fun x => (x + 48) % 256)] := by
    have h1 : s :: 58 :: c.map (fun x => (x + 48) % 256) =
        [s] ++ 58 :: c.map (fun x => (x + 48) % 256) := rfl
    rw [h1, splitOnNat_append_sep 58 [s] _
      (by intro x hx; simp at hx; subst hx; exact hs58)]
    rw [splitOnNat_no_sep 58 _ hno58]
  have hall : (c.map (fun x => (x + 48) % 256)).all
      (fun x => decide (x = 48 ∨ x = 49)) = true := by
    rw [List.all_eq_true]
    intro x hx
    obtain ⟨b, hb, rfl⟩ := List.mem_map.mp hx
    rcases hc b hb with rfl | rfl <;> decide
  have hback : (c.map (fun x => (x + 48) % 256)).map (fun x => x - 48) = c := by
    rw [List.map_map]
    conv_rhs => rw [← List.map_id c]
    apply List.map_congr_left
    intro x hx
    rcases hc x hx with rfl | rfl <;> rfl
  unfold parseLine
  rw [hsplit]
  simp [hall, hback]
  intro x hx hne
  rcases hc x hx with rfl | rfl
  · exact absurd (by decide) hne
  · decide

theorem parseLinesAux_cons_panic (acc : List (List Nat × Nat)) (l : List Nat)
    (rest : List (List Nat)) (cs : List Nat) (hu : utf8Decode l = some cs)
    (hpl : parseLine cs = none) : parseLinesAux acc (l :: rest) = none := by
  conv_lhs => rw [parseLinesAux]
  rw [hu]
  dsimp only
  rw [hpl]

theorem parseLinesAux_cons_err (acc : List (List Nat × Nat)) (l : List Nat)
    (rest : List (List Nat)) (cs : List Nat) (hu : utf8Decode l = some cs)
    (hpl : parseLine cs = some (Except.error ())) :
    parseLinesAux acc (l :: rest) = some (Except.error ()) := by
  conv_lhs => rw [parseLinesAux]
  rw [hu]
  dsimp only
  rw [hpl]

theorem parseLinesAux_cons_ok (acc : List (List Nat × Nat)) (l : List Nat)
    (rest : List (List Nat)) (cs : List Nat) (ch : Nat) (code : List Nat)
    (hu : utf8Decode l = some cs)
    (hpl : parseLine cs = some (Except.ok (ch, code))) :
    parseLinesAux acc (l :: rest) = parseLinesAux (insertAL acc code ch) rest := by
  conv_lhs => rw [parseLinesAux]
  rw [hu]
  dsimp only
  rw [hpl]

theorem parseLinesAux_pre (pre : List (List Nat)) :
    ∀ (ls : List (List Nat)) (acc : List (List Nat × Nat)),
      (∀ p ∈ pre, goodRecord p = true) →
      ∃ acc', parseLinesAux acc (pre ++ ls) = parseLinesAux acc' ls := by
  induction pre with
  | nil => intro ls acc _; exact ⟨acc, rfl⟩
  | cons p pre' ih =>
    intro ls acc hpre
    have hp := hpre p (by simp)
    unfold goodRecord at hp
    cases hu : utf8Decode p with
    | none => rw [hu] at hp; simp at hp
    | some cs =>
      rw [hu] at hp
      dsimp only at hp
      cases hl : parseLine cs with
      | none => rw [hl] at hp; simp at hp
      | some r =>
        cases r with
        | error e => rw [hl] at hp; simp at hp
        | ok pr =>
          rw [List.cons_append,
            parseLinesAux_cons_ok acc p (pre' ++ ls) cs pr.1 pr.2 hu (by rw [hl])]
          exact ih ls (insertAL acc pr.2 pr.1) (fun x hx => hpre x (by simp [hx]))

/-- Claim C4 (amended): for a persisted code-table file whose records
before some record R all parse successfully, deserialization returns a
parse error (rather than succeeding or aborting abnormally) when R's
symbol field (before the first ':') is not exactly one character; but
when the symbol field is one character and R has no ':' separator, or R's
code field contains a character other than '0'/'1', deserialization
panics (aborts abnormally) instead of returning a parse error.  The
original claim said all three malformations yield a parse error. -/
theorem parse_error_behaviour (pre : List (List Nat)) (l : List Nat)
    (rest : List (List Nat)) (cs : List Nat) (bs : List Nat)
    (hall : ∀ r ∈ pre ++ l :: rest, (∀ c ∈ r, c ≠ 10) ∧ r.getLast? ≠ some 13)
    (hpre : ∀ p ∈ pre, goodRecord p = true)
    (hu : utf8Decode l = some cs)
    (hbs : bs = ((pre ++ l :: rest).map (fun r => r ++ [10])).flatten) :
    ((symbolField cs).length ≠ 1 →
      generate_code_table_from_file bs = some (Except.error ())) ∧
    ((symbolField cs).length = 1 → codeField cs = none →
      generate_code_table_from_file bs = none) ∧
    (∀ p1, (symbolField cs).length = 1 → codeField cs = some p1 →
      ¬(∀ x ∈ p1, x = 48 ∨ x = 49) →
      generate_code_table_from_file bs = none) := by
  subst hbs
  unfold generate_code_table_from_file
  rw [linesOfBytes_records _ hall]
  obtain ⟨acc', hacc⟩ := parseLinesAux_pre pre (l :: rest) [] hpre
  rw [hacc]
  cases hsp : splitOnNat 58 cs with
  | nil => exact absurd hsp (splitOnNat_ne_nil 58 cs)
  | cons p0 parts =>
    have hsym : symbolField cs = p0 := by
      unfold symbolField
      rw [hsp]
      rfl
    have hcf : codeField cs = parts.head? := by
      unfold codeField
      rw [hsp]
      rfl
    refine ⟨?_, ?_, ?_⟩
    · intro hlen
      apply parseLinesAux_cons_err acc' l rest cs hu
      unfold parseLine
      rw [hsp]
      dsimp only
      rw [if_neg (hsym ▸ hlen)]
    · intro hlen hcode
      apply parseLinesAux_cons_panic acc' l rest cs hu
      unfold parseLine
      rw [hsp]
      dsimp only
      rw [if_pos (hsym ▸ hlen)]
      rw [hcf] at hcode
      rw [hcode]
    · intro p1 hlen hcode hbad
      apply parseLinesAux_cons_panic acc' l rest cs hu
      unfold parseLine
      rw [hsp]
      dsimp only
      rw [if_pos (hsym ▸ hlen)]
      rw [hcf] at hcode
      rw [hcode]
      dsimp only
      have hfalse : p1.all (fun c => decide (c = 48 ∨ c = 49)) = false := by
        cases hba : p1.all (fun c => decide (c = 48 ∨ c = 49)) with
        | true =>
          rw [List.all_eq_true] at hba
          exact absurd (fun x hx => by simpa using hba x hx) hbad
        | false => rfl
      rw [hfalse]
      rfl

/-- Witness for `parse_error_behaviour`: the file `"b:0\naa\nc\n"` — the
second record `"aa"` has a two-character symbol field, so deserialization
returns a parse error. -/
theorem parse_error_behaviour_witness :
    generate_code_table_from_file [98, 58, 48, 10, 97, 97, 10, 99, 10] =
      some (Except.error ()) :=
  (parse_error_behaviour [[98, 58, 48]] [97, 97] [[99]] [97, 97]
    [98, 58, 48, 10, 97, 97, 10, 99, 10]
    (by decide) (by decide) (by decide) (by decide)).1 (by decide)

theorem insertAL_fresh (m : List (List Nat × Nat)) (k : List Nat) (v : Nat)
    (h : k ∉ m.map Prod.fst) : insertAL m k v = m ++ [(k, v)] := by
  unfold insertAL
  rw [if_neg]
  intro hcon
  rw [List.any_eq_true] at hcon
  obtain ⟨p, hp, hpk⟩ := hcon
  simp at hpk
  exact h (List.mem_map.mpr ⟨p, hp, hpk⟩)

theorem write_code2file_lines (tbl : List (Nat × List Nat)) :
    write_code2file tbl =
      ((tbl.map (fun p => p.1 :: 58 :: p.2.map (fun x => (x + 48) % 256))).map
        (fun r => r ++ [10])).flatten := by
  unfold write_code2file
  congr 1
  rw [List.map_map]
  apply List.map_congr_left
  intro p _
  simp

theorem parseLinesAux_table :
    ∀ (tbl : List (Nat × List Nat)) (acc : List (List Nat × Nat)),
      (∀ p ∈ tbl, 1 ≤ p.1 ∧ p.1 ≤ 127 ∧ p.1 ≠ 10 ∧ p.1 ≠ 58) →
      (∀ p ∈ tbl, ∀ x ∈ p.2, x = 0 ∨ x = 1) →
      (tbl.map Prod.snd).Nodup →
      (∀ p ∈ tbl, p.2 ∉ acc.map Prod.fst) →
      parseLinesAux acc
        (tbl.map (fun p => p.1 :: 58 :: p.2.map (fun x => (x + 48) % 256))) =
        some (Except.ok (acc ++ invertTable tbl)) := by
  intro tbl
  induction tbl with
  | nil =>
    intro acc _ _ _ _
    simp [parseLinesAux, invertTable]
  | cons p tbl' ih =>
    intro acc hsym hbits hnodup hdisj
    obtain ⟨hp1, hp127, hp10, hp58⟩ := hsym p (by simp)
    have hpbits := hbits p (by simp)
    have hu : utf8Decode (p.1 :: 58 :: p.2.map (fun x => (x + 48) % 256)) =
        some (p.1 :: 58 :: p.2.map (fun x => (x + 48) % 256)) := by
      apply utf8_ascii
      intro b hb
      rcases List.mem_cons.mp hb with rfl | hb'
      · omega
      rcases List.mem_cons.mp hb' with rfl | hb''
      · omega
      obtain ⟨x, hx, rfl⟩ := List.mem_map.mp hb''
      rcases hpbits x hx with rfl | rfl <;> decide
    have hpl := parseLine_record p.1 p.2 hp58 hpbits
    have hmod : p.1 % 256 = p.1 := Nat.mod_eq_of_lt (by omega)
    rw [hmod] at hpl
    rw [List.map_cons,
      parseLinesAux_cons_ok acc _ _ _ p.1 p.2 hu hpl,
      insertAL_fresh acc p.2 p.1 (hdisj p (by simp))]
    have hnodup' : (tbl'.map Prod.snd).Nodup := by
      rw [List.map_cons] at hnodup
      exact (List.nodup_cons.mp hnodup).2
    have hp2notin : p.2 ∉ tbl'.map Prod.snd := by
      rw [List.map_cons] at hnodup
      exact (List.nodup_cons.mp hnodup).1
    rw [ih (acc ++ [(p.2, p.1)]) (fun q hq => hsym q (by simp [hq]))
      (fun q hq => hbits q (by simp [hq])) hnodup' ?_]
    · rw [List.append_assoc]
      rfl
    · intro q hq
      rw [List.map_append]
      intro hcon
      rcases List.mem_append.mp hcon with hc | hc
      · exact hdisj q (by simp [hq]) hc
      · simp at hc
        exact hp2notin (hc ▸ List.mem_map.mpr ⟨q, hq, rfl⟩)

/-- Claim C5 (amended): serializing an encode table whose symbols are all
in the ASCII range 1–127 and different from `'\n'` and `':'`, with
bit-valued pairwise-distinct codes, and deserializing the produced bytes
yields exactly the inverse mapping: the same bitstring-symbol pairs.  The
original claim, for *any* table over a non-empty symbol set, fails e.g.
for the symbol `'\n'` (see the counterexample); symbols ≥ 128 similarly
break the UTF-8 line reading, and `':'` breaks field splitting. -/
theorem code_table_roundtrip (tbl : List (Nat × List Nat))
    (hsym : ∀ p ∈ tbl, 1 ≤ p.1 ∧ p.1 ≤ 127 ∧ p.1 ≠ 10 ∧ p.1 ≠ 58)
    (hbits : ∀ p ∈ tbl, ∀ x ∈ p.2, x = 0 ∨ x = 1)
    (hcodes : (tbl.map Prod.snd).Nodup) :
    generate_code_table_from_file (write_code2file tbl) =
      some (Except.ok (invertTable tbl)) ∧
    (∀ (c : List Nat) (s : Nat), ((c, s) ∈ invertTable tbl ↔ (s, c) ∈ tbl)) := by
  constructor
  · unfold generate_code_table_from_file
    rw [write_code2file_lines, linesOfBytes_records]
    · exact parseLinesAux_table tbl [] hsym hbits hcodes (by simp)
    · intro r hr
      obtain ⟨p, hp, rfl⟩ := List.mem_map.mp hr
      obtain ⟨hp1, hp127, hp10, hp58⟩ := hsym p hp
      have hpbits := hbits p hp
      constructor
      · intro c hc
        rcases List.mem_cons.mp hc with rfl | hc'
        · exact hp10
        rcases List.mem_cons.mp hc' with rfl | hc''
        · decide
        obtain ⟨x, hx, rfl⟩ := List.mem_map.mp hc''
        rcases hpbits x hx with rfl | rfl <;> decide
      · cases hc2 : p.2 with
        | nil => simp [hc2]
        | cons x xs =>
          rw [show p.1 :: 58 :: (x :: xs).map (fun z => (z + 48) % 256) =
            [p.1, 58] ++ (x :: xs).map (fun z => (z + 48) % 256) from rfl]
          rw [List.getLast?_append_of_ne_nil _ (by simp)]
          intro hcon
          have h13 : (13 : Nat) ∈ (x :: xs).map (fun z => (z + 48) % 256) :=
            mem_of_getLast?_eq hcon
          obtain ⟨y, hy, hyc⟩ := List.mem_map.mp h13
          rcases hpbits y (by rw [hc2]; exact hy) with rfl | rfl <;> simp at hyc
  · intro c s
    constructor
    · intro h
      obtain ⟨p, hp, he⟩ := List.mem_map.mp h
      have h1 : p.2 = c := congrArg Prod.fst he
      have h2 : p.1 = s := congrArg Prod.snd he
      rw [← h1, ← h2]
      exact hp
    · intro h
      exact List.mem_map.mpr ⟨(s, c), h, rfl⟩

/-- Witness for `code_table_roundtrip` at the table
`[(97, [0]), (98, [1])]`. -/
theorem code_table_roundtrip_witness :
    generate_code_table_from_file (write_code2file [(97, [0]), (98, [1])]) =
      some (Except.ok (invertTable [(97, [0]), (98, [1])])) :=
  (code_table_roundtrip [(97, [0]), (98, [1])] (by decide) (by decide)
    (by decide)).1
